import Mathlib

/-!
Shallow embedding of `pep8radius/vcs.py`, the version-control abstraction
layer of pep8radius.

The external process-execution adapter (`pep8radius.shell`) is modelled as
an oracle `ShellEnv` holding the two functions `shell_out` and
`shell_out_ignore_exitcode`.  Every embedded operation that may spawn a
process additionally returns the ordered list of commands it invoked, so
that frame properties ("command X was not run") are statable.

Python strings are modelled as `String` (a list of characters); the
concrete regular expressions of `vcs.py` are hand-compiled into
backtracking matchers that follow Python `re` semantics (greedy
quantifiers, leftmost match, non-overlapping `findall` scan, `.` not
matching a newline, `^` anchoring at position 0 since `re.M` is not set).
-/

/-- Errors raised by the process-execution adapter `pep8radius.shell`:
`CalledProcessError` on non-zero exit, `OSError` when the tool is missing. -/
inductive ShellErr where
  | calledProcessError
  | osError
deriving DecidableEq

/-- Errors surfaced by the vcs layer: propagated shell-adapter errors,
Python `NotImplementedError` (with its message), and Python `IndexError`
from list indexing while parsing command output. -/
inductive Err where
  | shell (e : ShellErr)
  | notImplemented (msg : String)
  | indexError
deriving DecidableEq

/-- One recorded process invocation: the argument vector, the working
directory (`none` models Python's `cwd=None`, i.e. the process's current
directory), and whether it was run via `shell_out_ignore_exitcode`. -/
structure Cmd where
  argv : List String
  cwd : Option String
  ignore : Bool
deriving DecidableEq

/-- Oracle for the `pep8radius.shell` adapter: `shell_out` and
`shell_out_ignore_exitcode` as pure functions from (argv, cwd) to the
trimmed standard output or a typed failure. -/
structure ShellEnv where
  shell_out : List String → Option String → Except ShellErr String
  shell_out_ignore_exitcode : List String → Option String → Except ShellErr String

/-- The closed set of backend driver classes defined in `vcs.py`. -/
inductive VCS where
  | git
  | hg
  | bzr
deriving DecidableEq

/-- Run `shell_out(argv, cwd=some dir)` recording the invocation. -/
def shellCall (env : ShellEnv) (argv : List String) (cwd : Option String) :
    Except Err String × List Cmd :=
  (match env.shell_out argv cwd with
   | .ok s => .ok s
   | .error e => .error (.shell e),
   [⟨argv, cwd, false⟩])

/-- Run `shell_out_ignore_exitcode(argv, cwd=some dir)` recording the
invocation. -/
def shellCallIgnore (env : ShellEnv) (argv : List String) (cwd : Option String) :
    Except Err String × List Cmd :=
  (match env.shell_out_ignore_exitcode argv cwd with
   | .ok s => .ok s
   | .error e => .error (.shell e),
   [⟨argv, cwd, true⟩])

/-! ### Python string primitives used by `vcs.py` -/

/-- Python regex `\s` / `str.isspace` character class (Unicode whitespace). -/
def isWS (c : Char) : Bool :=
  let n := c.toNat
  (9 ≤ n && n ≤ 13) || n = 32 || (28 ≤ n && n ≤ 31) || n = 0x85 || n = 0xa0 ||
    n = 0x1680 || (0x2000 ≤ n && n ≤ 0x200a) || n = 0x2028 || n = 0x2029 ||
    n = 0x202f || n = 0x205f || n = 0x3000

/-- Python line-break characters recognised by `str.splitlines`. -/
def isLB (c : Char) : Bool :=
  c = '\n' || c = '\r' || c.toNat = 11 || c.toNat = 12 || c.toNat = 28 ||
    c.toNat = 29 || c.toNat = 30 || c.toNat = 0x85 || c.toNat = 0x2028 ||
    c.toNat = 0x2029

/-- Worker for `str.splitlines` (keepends=False): accumulates the current
line; `\r\n` counts as a single break; a trailing segment is kept only when
non-empty. -/
def slAux : List Char → List Char → List (List Char)
  | [], acc => if acc.isEmpty then [] else [acc.reverse]
  | '\r' :: '\n' :: rest, acc => acc.reverse :: slAux rest []
  | c :: rest, acc =>
    if isLB c then acc.reverse :: slAux rest []
    else slAux rest (c :: acc)

/-- Python `str.splitlines()`. -/
def splitlines (s : String) : List String :=
  (slAux s.data []).map String.mk

/-- Python `str.strip()` with no argument: drop leading and trailing
whitespace. -/
def pyStrip (s : String) : String :=
  String.mk (((s.data.dropWhile isWS).reverse.dropWhile isWS).reverse)

/-- Worker for `str.title`: a cased character is uppercased when the
previous character is not cased, lowercased otherwise. -/
def pyTitleAux : List Char → Bool → List Char
  | [], _ => []
  | c :: rest, prevCased =>
    if c.isAlpha then
      (if prevCased then c.toLower else c.toUpper) :: pyTitleAux rest true
    else
      c :: pyTitleAux rest false

/-- Python `str.title()`. -/
def pyTitle (s : String) : String :=
  String.mk (pyTitleAux s.data false)

/-- Python `str.split(sep)` for a one-character separator: splits at every
occurrence, keeping empty fields (`"".split(':') == ['']`). -/
def pySplitChar (sep : Char) : List Char → List (List Char)
  | [] => [[]]
  | c :: rest =>
    match pySplitChar sep rest with
    | [] => [[]]
    | h :: t => if c = sep then [] :: h :: t else (c :: h) :: t

/-- Python `str.rsplit(' ', 1)[1]`: the suffix after the last space, or
`none` (an `IndexError`) when the string holds no space. -/
def pyRsplitSpace1 (l : List Char) : Option (List Char) :=
  if ' ' ∈ l then some (l.reverse.takeWhile (fun c => c ≠ ' ')).reverse else none

/-- Loop of `posixpath.normpath`: process components, skipping `''` and
`'.'`, appending non-`..` components, and popping on `..` (except at the
start of a relative path or after an unpopped `..`). -/
def normpathComps : List (List Char) → List (List Char) → Nat → List (List Char)
  | [], acc, _ => acc
  | comp :: rest, acc, slashes =>
    if comp = [] ∨ comp = ['.'] then normpathComps rest acc slashes
    else if comp ≠ ['.', '.'] ∨ (slashes = 0 ∧ acc = []) ∨ acc.getLast? = some ['.', '.'] then
      normpathComps rest (acc ++ [comp]) slashes
    else
      normpathComps rest acc.dropLast slashes

/-- `os.path.normpath` (POSIX flavour, as used by `Git.root_dir`):
collapse repeated separators, `.` and `..`, preserving one or two leading
slashes. -/
def normpath (s : String) : String :=
  if s = "" then "." else
  let ds := s.data
  let slashes : Nat :=
    match ds with
    | '/' :: '/' :: '/' :: _ => 1
    | '/' :: '/' :: _ => 2
    | '/' :: _ => 1
    | _ => 0
  let comps := pySplitChar '/' ds
  let newComps := normpathComps comps [] slashes
  let out := List.replicate slashes '/' ++ List.intercalate ['/'] newComps
  if out = [] then "." else String.mk out

/-! ### `vcs.py`: module-level probe helpers -/

/-- `using_git()`: run `git log`, returning `True` on success and `False`
when `shell_out` raises `CalledProcessError` or `OSError`. -/
def using_git (env : ShellEnv) : Bool × List Cmd :=
  (match env.shell_out ["git", "log"] none with
   | .ok _ => true
   | .error _ => false,
   [⟨["git", "log"], none, false⟩])

/-- `using_hg()`: run `hg log`, as `using_git`. -/
def using_hg (env : ShellEnv) : Bool × List Cmd :=
  (match env.shell_out ["hg", "log"] none with
   | .ok _ => true
   | .error _ => false,
   [⟨["hg", "log"], none, false⟩])

/-- `using_bzr()`: run `bzr log`, as `using_git`. -/
def using_bzr (env : ShellEnv) : Bool × List Cmd :=
  (match env.shell_out ["bzr", "log"] none with
   | .ok _ => true
   | .error _ => false,
   [⟨["bzr", "log"], none, false⟩])

/-! ### `VersionControl` class -/

/-- `VersionControl.from_string(vc)`: `globals()[vc.title()]`.  The module
globals of `vcs.py` contain exactly `Git`, `Hg` and `Bzr` as names that
`str.title` can produce (the remaining globals — `os`, `re`, `shell_out`,
`shell_out_ignore_exitcode`, `CalledProcessError`, `using_git`, `using_hg`,
`using_bzr`, `VersionControl` — are not title-case forms of any input,
since `title` uppercases exactly the first letter of each alphabetic run
and lowercases the rest), so the lookup succeeds on exactly these three
keys; a `KeyError` becomes `NotImplementedError`. -/
def VersionControl.from_string (vc : String) : Except Err VCS :=
  match pyTitle vc with
  | "Git" => .ok .git
  | "Hg" => .ok .hg
  | "Bzr" => .ok .bzr
  | _ => .error (.notImplemented "Unknown version control system.")

/-- `VersionControl.which()`: iterate the module globals in definition
order (CPython dicts preserve insertion order), calling each `using_*`
probe; return `from_string(k[6:])` for the first probe returning `True`,
else raise `NotImplementedError`. -/
def VersionControl.which (env : ShellEnv) : Except Err VCS × List Cmd :=
  let g := using_git env
  if g.1 then (VersionControl.from_string "git", g.2) else
  let h := using_hg env
  if h.1 then (VersionControl.from_string "hg", g.2 ++ h.2) else
  let b := using_bzr env
  if b.1 then (VersionControl.from_string "bzr", g.2 ++ h.2 ++ b.2) else
  (.error (.notImplemented
      "Unknown version control system, or you're not in the project directory."),
   g.2 ++ h.2 ++ b.2)

/-- `Git.current_branch` / `Hg.current_branch` / `Bzr.current_branch`:
the backend's identify-current-revision command, run with
`cwd=self.root`; Mercurial truncates `hg id` output to 12 characters. -/
def VersionControl.current_branch (vcs : VCS) (env : ShellEnv) (root : String) :
    Except Err String × List Cmd :=
  match vcs with
  | .git => shellCall env ["git", "rev-parse", "HEAD"] (some root)
  | .hg =>
    let r := shellCall env ["hg", "id"] (some root)
    (r.1.map (fun s => String.mk (s.data.take 12)), r.2)
  | .bzr =>
    shellCall env ["bzr", "version-info", "--custom",
      "--template=\x7brevision_id\x7d"] (some root)

/-- `Git.root_dir` / `Hg.root_dir` / `Bzr.root_dir` (static, `cwd=None`
default): print-repository-root command run from `cwd`; only Git passes
the output through `os.path.normpath`. -/
def VersionControl.root_dir (vcs : VCS) (env : ShellEnv) (cwd : Option String) :
    Except Err String × List Cmd :=
  match vcs with
  | .git =>
    let r := shellCall env ["git", "rev-parse", "--show-toplevel"] cwd
    (r.1.map normpath, r.2)
  | .hg => shellCall env ["hg", "root"] cwd
  | .bzr => shellCall env ["bzr", "root"] cwd

/-- `VersionControl.__init__(self, root=None)`: store a supplied root
verbatim; only when `root is None` call `self.root_dir()` (with its
default `cwd=None`). -/
def VersionControl.init (vcs : VCS) (env : ShellEnv) (root : Option String) :
    Except Err String × List Cmd :=
  match root with
  | some r => (.ok r, [])
  | none => VersionControl.root_dir vcs env none

/-- `Git.merge_base(rev1, rev2)`: `git merge-base` via `self._shell_out`
(`cwd=self.root`). -/
def Git.merge_base (env : ShellEnv) (root rev1 rev2 : String) :
    Except Err String × List Cmd :=
  shellCall env ["git", "merge-base", rev1, rev2] (some root)

/-- `Hg.merge_base(rev1, rev2)`: `hg debugancestor rev1 rev2`, then
`output.split(':')[1]`. -/
def Hg.merge_base (env : ShellEnv) (root rev1 rev2 : String) :
    Except Err String × List Cmd :=
  let r := shellCall env ["hg", "debugancestor", rev1, rev2] (some root)
  (match r.1 with
   | .error e => .error e
   | .ok out =>
     match (pySplitChar ':' out.data)[1]? with
     | some h => .ok (String.mk h)
     | none => .error .indexError,
   r.2)

/-- `Bzr.merge_base(rev1, rev2)`: validate `rev1` with
`bzr log -c rev1` (a bad revision raises `CalledProcessError`), then run
`bzr find-merge-base rev1 rev2` ignoring its exit code and return
`output.rsplit(' ', 1)[1]`. -/
def Bzr.merge_base (env : ShellEnv) (root rev1 rev2 : String) :
    Except Err String × List Cmd :=
  let v := shellCall env ["bzr", "log", "-c", rev1] (some root)
  match v.1 with
  | .error e => (.error e, v.2)
  | .ok _ =>
    let f := shellCallIgnore env ["bzr", "find-merge-base", rev1, rev2] (some root)
    (match f.1 with
     | .error e => .error e
     | .ok out =>
       match pyRsplitSpace1 out.data with
       | some tok => .ok (String.mk tok)
       | none => .error .indexError,
     v.2 ++ f.2)

/-- Dispatch `merge_base` over the three driver classes. -/
def VersionControl.merge_base (vcs : VCS) (env : ShellEnv) (root rev1 rev2 : String) :
    Except Err String × List Cmd :=
  match vcs with
  | .git => Git.merge_base env root rev1 rev2
  | .hg => Hg.merge_base env root rev1 rev2
  | .bzr => Bzr.merge_base env root rev1 rev2

/-- `VersionControl._branch_point(rev=None)`: always compute
`current = self.current_branch()`; return it when `rev is None`, else
`self.merge_base(rev, current)`. -/
def VersionControl._branch_point (vcs : VCS) (env : ShellEnv) (root : String)
    (rev : Option String) : Except Err String × List Cmd :=
  let c := VersionControl.current_branch vcs env root
  match c.1 with
  | .error e => (.error e, c.2)
  | .ok current =>
    match rev with
    | none => (.ok current, c.2)
    | some r =>
      let m := VersionControl.merge_base vcs env root r current
      (m.1, c.2 ++ m.2)

/-! ### Diff command builders (pure; `r.rev` is passed as `rev`) -/

/-- `Git.file_diff_cmd(r, f)`. -/
def Git.file_diff_cmd (rev f : String) : List String :=
  ["git", "diff", rev, f]

/-- `Git.filenames_diff_cmd(r)`. -/
def Git.filenames_diff_cmd (rev : String) : List String :=
  ["git", "diff", rev, "--name-only"]

/-- `Hg.file_diff_cmd(r, f)`. -/
def Hg.file_diff_cmd (rev f : String) : List String :=
  ["hg", "diff", "-r", rev, f]

/-- `Hg.filenames_diff_cmd(r)`. -/
def Hg.filenames_diff_cmd (rev : String) : List String :=
  ["hg", "diff", "--stat", "-r", rev]

/-- `Bzr.file_diff_cmd(r, f)`. -/
def Bzr.file_diff_cmd (rev f : String) : List String :=
  ["bzr", "diff", f, "-r", rev]

/-- `Bzr.filenames_diff_cmd(r)`. -/
def Bzr.filenames_diff_cmd (rev : String) : List String :=
  ["bzr", "status", "-S", "-r", rev]

/-- `Git.parse_diff_filenames(diff_files)`: `diff_files.splitlines()`. -/
def Git.parse_diff_filenames (diff_files : String) : List String :=
  splitlines diff_files

/-! ### `Hg.parse_diff_filenames`: `re.findall('(\n|^) ?(?P<file_name>.*\.py)\s+\|', diff_files)`

The pattern is hand-compiled.  `findall` scans left to right for
non-overlapping matches; group 1 `(\n|^)` matches a newline (preferred) or
the start of the string; ` ?` greedily takes one optional space; the named
group is `.*\.py` with `.*` greedy over non-newline characters; `\s+\|` is
a whitespace run followed by a literal pipe (deterministic, since `|` is
not whitespace).  The returned captures are the named group. -/

/-- Length of the maximal prefix `.*` can cover (no newline). -/
def countNonNL (l : List Char) : Nat :=
  (l.takeWhile (fun c => c ≠ '\n')).length

/-- Match `\s+\|` after its first (already checked) whitespace character:
consume whitespace until a literal `|`, returning the rest. -/
def wsPipeAux : List Char → Option (List Char)
  | [] => none
  | c :: rest =>
    if c = '|' then some rest
    else if isWS c then wsPipeAux rest
    else none

/-- Match `\s+\|`, returning the input after the pipe. -/
def wsPipe : List Char → Option (List Char)
  | [] => none
  | c :: rest => if isWS c then wsPipeAux rest else none

/-- Try `(.*\.py)\s+\|` with `.*` bound to exactly `k` characters:
requires the literal `.py` at position `k`, then `\s+\|`; the capture is
the first `k + 3` characters. -/
def tryPyStep (l : List Char) (k : Nat) : Option (List Char × List Char) :=
  match l.drop k with
  | '.' :: 'p' :: 'y' :: r =>
    match wsPipe r with
    | some r2 => some (l.take (k + 3), r2)
    | none => none
  | _ => none

/-- Greedy `.*`: try `k` characters from the given maximum downwards. -/
def tryPy (l : List Char) : Nat → Option (List Char × List Char)
  | 0 => tryPyStep l 0
  | k + 1 =>
    match tryPyStep l (k + 1) with
    | some res => some res
    | none => tryPy l k

/-- Match `(.*\.py)\s+\|` at the current position. -/
def matchTail (l : List Char) : Option (List Char × List Char) :=
  tryPy l (countNonNL l)

/-- Match ` ?(.*\.py)\s+\|`: the optional space is greedy, backtracking to
the spaceless attempt on failure. -/
def optSpaceTail (l : List Char) : Option (List Char × List Char) :=
  if l.head? = some ' ' then
    match matchTail l.tail with
    | some res => some res
    | none => matchTail l
  else matchTail l

/-- Fuelled `findall` scan: at each position try group 1 as `\n` (when the
head is a newline) and, failing that, as `^` (only at position 0, tracked
by `atStart`); on a match emit the capture and resume after the match, on
failure advance one character.  Each match consumes at least four
characters, so fuel `l.length` suffices (`hgScanF_fuel`). -/
def hgScanF : Nat → List Char → Bool → List (List Char)
  | 0, _, _ => []
  | _ + 1, [], _ => []
  | fuel + 1, c :: rest, atStart =>
    match (if c = '\n' then optSpaceTail rest else none) with
    | some (cap, r) => cap :: hgScanF fuel r false
    | none =>
      match (if atStart then optSpaceTail (c :: rest) else none) with
      | some (cap, r) => cap :: hgScanF fuel r false
      | none => hgScanF fuel rest false

/-- The `findall` scan over a whole string (fuel fixed at the length). -/
def hgScan (l : List Char) (atStart : Bool) : List (List Char) :=
  hgScanF l.length l atStart

/-- `Hg.parse_diff_filenames(diff_files)`: the list of `file_name`
captures of the `findall` scan. -/
def Hg.parse_diff_filenames (diff_files : String) : List String :=
  (hgScan diff_files.data true).map String.mk

/-! ### `Bzr.parse_diff_filenames`: per-line `re.findall('[^ ]+\s+(.*.py)', line)`

Only the first match (`fn[0]`) is used.  `[^ ]+` is a greedy run of
non-space characters, `\s+` a greedy whitespace run, and the capture
`.*.py` is greedy-`.*`, any single character, then the literal `py`; all
three quantified parts backtrack from longest to shortest. -/

/-- Length of the maximal `[^ ]+` run. -/
def countNS (l : List Char) : Nat :=
  (l.takeWhile (fun c => c ≠ ' ')).length

/-- Length of the maximal `\s+` run. -/
def countWS (l : List Char) : Nat :=
  (l.takeWhile isWS).length

/-- Try `(.*.py)` with `.*` bound to exactly `k` characters: any
non-newline character at position `k`, then the literal `py`; the capture
is the first `k + 3` characters. -/
def bzrCapStep (l : List Char) (k : Nat) : Option (List Char) :=
  match l.drop k with
  | a :: 'p' :: 'y' :: _ => if a = '\n' then none else some (l.take (k + 3))
  | _ => none

/-- Greedy `.*` of the Bazaar capture: `k` from the maximum downwards. -/
def bzrCap (l : List Char) : Nat → Option (List Char)
  | 0 => bzrCapStep l 0
  | k + 1 =>
    match bzrCapStep l (k + 1) with
    | some cap => some cap
    | none => bzrCap l k

/-- Greedy `\s+` then the capture: consume `j` whitespace characters
(`j ≥ 1`, from the maximum run downwards), then try the capture. -/
def bzrWsCap (l : List Char) : Nat → Option (List Char)
  | 0 => none
  | j + 1 =>
    match bzrCap (l.drop (j + 1)) (countNonNL (l.drop (j + 1))) with
    | some cap => some cap
    | none => bzrWsCap l j

/-- Greedy `[^ ]+` then `\s+(.*.py)`: consume `i` non-space characters
(`i ≥ 1`, from the maximum run downwards). -/
def bzrNSCap (l : List Char) : Nat → Option (List Char)
  | 0 => none
  | i + 1 =>
    match bzrWsCap (l.drop (i + 1)) (countWS (l.drop (i + 1))) with
    | some cap => some cap
    | none => bzrNSCap l i

/-- First match of the pattern in the line: try each start position left
to right. -/
def bzrFirstMatch : List Char → Option (List Char)
  | [] => none
  | c :: rest =>
    match bzrNSCap (c :: rest) (countNS (c :: rest)) with
    | some cap => some cap
    | none => bzrFirstMatch rest

/-- One loop iteration of `Bzr.parse_diff_filenames`: strip the line, run
`findall`, and keep `fn[0]` when `fn` is non-empty and the stripped line
does not start with `'?'`. -/
def bzrParseLine (line : String) : Option String :=
  let l2 := pyStrip line
  match bzrFirstMatch l2.data with
  | some cap => if l2.data.head? = some '?' then none else some (String.mk cap)
  | none => none

/-- `Bzr.parse_diff_filenames(diff_files)`: the loop over
`diff_files.splitlines()`. -/
def Bzr.parse_diff_filenames (diff_files : String) : List String :=
  (splitlines diff_files).filterMap bzrParseLine

/-! ### Concrete oracle environments used by witnesses and counterexamples -/

/-- An environment whose repository answers `git rev-parse HEAD` with
`"abc"`. -/
def envGitA : ShellEnv where
  shell_out := fun argv _ =>
    if argv = ["git", "rev-parse", "HEAD"] then .ok "abc"
    else .error .calledProcessError
  shell_out_ignore_exitcode := fun _ _ => .error .calledProcessError

/-- An environment whose repository answers `git rev-parse HEAD` with
`"xyz"`. -/
def envGitB : ShellEnv where
  shell_out := fun argv _ =>
    if argv = ["git", "rev-parse", "HEAD"] then .ok "xyz"
    else .error .calledProcessError
  shell_out_ignore_exitcode := fun _ _ => .error .calledProcessError

/-- An environment where `bzr log -c r1` succeeds and `bzr
find-merge-base r1 r2` prints its sentence (with a non-zero exit code,
visible only through `shell_out_ignore_exitcode`). -/
def envBzrOk : ShellEnv where
  shell_out := fun argv _ =>
    if argv = ["bzr", "log", "-c", "r1"] then .ok "log entry"
    else .error .calledProcessError
  shell_out_ignore_exitcode := fun argv _ =>
    if argv = ["bzr", "find-merge-base", "r1", "r2"] then
      .ok "merge base is revision r1"
    else .error .calledProcessError

/-- An environment where `bzr log -c badrev` fails. -/
def envBzrBadRev : ShellEnv where
  shell_out := fun _ _ => .error .calledProcessError
  shell_out_ignore_exitcode := fun argv _ =>
    if argv = ["bzr", "find-merge-base", "badrev", "r2"] then
      .ok "merge base is revision badrev"
    else .error .calledProcessError

/-- An environment answering `hg debugancestor` with `123:deadbeef1234`,
and the auto-detection probes so that only the Mercurial probe succeeds. -/
def envHg : ShellEnv where
  shell_out := fun argv _ =>
    if argv = ["hg", "debugancestor", "r1", "r2"] then .ok "123:deadbeef1234"
    else if argv = ["hg", "log"] then .ok "changeset: 0:abcd"
    else if argv = ["hg", "root"] then .ok "/a/./b"
    else .error .calledProcessError
  shell_out_ignore_exitcode := fun _ _ => .error .calledProcessError

/-! ### Well-formed Mercurial diff-stat fixtures (for the parser theorems) -/

/-- One Mercurial diff-stat line body: `" <path> | <stats>"`. -/
def hgLine (p st : List Char) : List Char :=
  ' ' :: (p ++ (' ' :: '|' :: ' ' :: st))

/-- A diff-stat text: the lines, each terminated by a newline. -/
def hgText : List (List Char × List Char) → List Char
  | [] => []
  | (p, st) :: rest => hgLine p st ++ '\n' :: hgText rest

/-- The diff-stat text as a string. -/
def hgStat (lines : List (List Char × List Char)) : String :=
  String.mk (hgText lines)

/-! ## Lemmas about the Mercurial scanner -/

theorem wsPipeAux_len : ∀ {l r : List Char}, wsPipeAux l = some r → r.length < l.length := by
  intro l
  induction l with
  | nil => intro r h; simp [wsPipeAux] at h
  | cons c rest ih =>
    intro r h
    simp only [wsPipeAux] at h
    split at h
    · injection h with h2
      subst h2
      simp
    · split at h
      · exact Nat.lt_trans (ih h) (by simp)
      · simp at h

theorem wsPipe_len {l r : List Char} (h : wsPipe l = some r) : r.length < l.length := by
  cases l with
  | nil => simp [wsPipe] at h
  | cons c rest =>
    simp only [wsPipe] at h
    split at h
    · exact Nat.lt_trans (wsPipeAux_len h) (by simp)
    · simp at h

theorem tryPyStep_len {l : List Char} {k : Nat} {cap r : List Char}
    (h : tryPyStep l k = some (cap, r)) : r.length + 3 ≤ l.length := by
  unfold tryPyStep at h
  split at h
  next rr heq =>
    split at h
    next r2 hws =>
      simp only [Option.some.injEq, Prod.mk.injEq] at h
      obtain ⟨hcap, hr⟩ := h
      subst hr
      have h1 : r2.length < rr.length := wsPipe_len hws
      have h2 := congrArg List.length heq
      simp only [List.length_drop, List.length_cons] at h2
      omega
    · simp at h
  · simp at h

theorem tryPyStep_shape {l : List Char} {k : Nat} {cap r : List Char}
    (h : tryPyStep l k = some (cap, r)) : cap = l.take k ++ ['.', 'p', 'y'] := by
  unfold tryPyStep at h
  split at h
  next rr heq =>
    split at h
    next r2 hws =>
      simp only [Option.some.injEq, Prod.mk.injEq] at h
      obtain ⟨hcap, hr⟩ := h
      rw [← hcap, List.take_add, heq]
      rfl
    · simp at h
  · simp at h

theorem tryPy_len {l cap r : List Char} :
    ∀ {k : Nat}, tryPy l k = some (cap, r) → r.length + 3 ≤ l.length := by
  intro k
  induction k with
  | zero => intro h; exact tryPyStep_len h
  | succ k ih =>
    intro h
    simp only [tryPy] at h
    split at h
    next res heq =>
      injection h with h2
      subst h2
      exact tryPyStep_len heq
    · exact ih h

theorem tryPy_shape {l cap r : List Char} :
    ∀ {k : Nat}, tryPy l k = some (cap, r) → ∃ q, cap = q ++ ['.', 'p', 'y'] := by
  intro k
  induction k with
  | zero => intro h; exact ⟨l.take 0, tryPyStep_shape h⟩
  | succ k ih =>
    intro h
    simp only [tryPy] at h
    split at h
    next res heq =>
      injection h with h2
      subst h2
      exact ⟨l.take (k + 1), tryPyStep_shape heq⟩
    · exact ih h

theorem matchTail_len {l cap r : List Char} (h : matchTail l = some (cap, r)) :
    r.length + 3 ≤ l.length :=
  tryPy_len h

theorem optSpaceTail_len {l cap r : List Char}
    (h : optSpaceTail l = some (cap, r)) : r.length < l.length := by
  unfold optSpaceTail at h
  split at h
  next hhead =>
    split at h
    next res heq =>
      injection h with h2
      subst h2
      have h1 := matchTail_len heq
      have h2 : l ≠ [] := by
        intro he
        subst he
        simp at hhead
      have h3 : l.tail.length = l.length - 1 := List.length_tail l
      have h4 : 1 ≤ l.length := List.length_pos.mpr h2
      omega
    · have := matchTail_len h
      omega
  · have := matchTail_len h
    omega

theorem optSpaceTail_shape {l cap r : List Char}
    (h : optSpaceTail l = some (cap, r)) : ∃ q, cap = q ++ ['.', 'p', 'y'] := by
  unfold optSpaceTail at h
  split at h
  · split at h
    next res heq =>
      injection h with h2
      subst h2
      exact tryPy_shape heq
    · exact tryPy_shape h
  · exact tryPy_shape h

theorem ifOpt_some {p : Prop} [Decidable p] {x : Option (List Char × List Char)}
    {v : List Char × List Char} (h : (if p then x else none) = some v) : x = some v := by
  split at h
  · exact h
  · simp at h

theorem hgScanF_fuel : ∀ (n : Nat) (l : List Char) (b : Bool) (m : Nat),
    l.length ≤ n → l.length ≤ m → hgScanF n l b = hgScanF m l b := by
  intro n
  induction n with
  | zero =>
    intro l b m h1 _
    have hl : l = [] := List.length_eq_zero.mp (Nat.le_zero.mp h1)
    subst hl
    cases m <;> simp [hgScanF]
  | succ n ih =>
    intro l b m h1 h2
    cases l with
    | nil => cases m <;> simp [hgScanF]
    | cons c rest =>
      cases m with
      | zero => simp at h2
      | succ m' =>
        simp only [List.length_cons] at h1 h2
        simp only [hgScanF]
        cases hopt1 : (if c = '\n' then optSpaceTail rest else none) with
        | some pr =>
          obtain ⟨cap, r⟩ := pr
          dsimp only
          have hr := optSpaceTail_len (ifOpt_some hopt1)
          rw [ih r false m' (by omega) (by omega)]
        | none =>
          dsimp only
          cases hopt2 : (if b = true then optSpaceTail (c :: rest) else none) with
          | some pr =>
            obtain ⟨cap, r⟩ := pr
            dsimp only
            have hr := optSpaceTail_len (ifOpt_some hopt2)
            simp only [List.length_cons] at hr
            rw [ih r false m' (by omega) (by omega)]
          | none =>
            dsimp only
            rw [ih rest false m' (by omega) (by omega)]

/-- Certified one-step recurrence of the scan: the fuelled definition
satisfies the natural (fuel-free) unfolding. -/
theorem hgScan_cons (c : Char) (rest : List Char) (b : Bool) :
    hgScan (c :: rest) b =
      match (if c = '\n' then optSpaceTail rest else none) with
      | some (cap, r) => cap :: hgScan r false
      | none =>
        match (if b then optSpaceTail (c :: rest) else none) with
        | some (cap, r) => cap :: hgScan r false
        | none => hgScan rest false := by
  unfold hgScan
  simp only [List.length_cons, hgScanF]
  cases hopt1 : (if c = '\n' then optSpaceTail rest else none) with
  | some pr =>
    obtain ⟨cap, r⟩ := pr
    dsimp only
    have hr := optSpaceTail_len (ifOpt_some hopt1)
    rw [hgScanF_fuel rest.length r false r.length (by omega) (by omega)]
  | none =>
    dsimp only
    cases hopt2 : (if b = true then optSpaceTail (c :: rest) else none) with
    | some pr =>
      obtain ⟨cap, r⟩ := pr
      dsimp only
      have hr := optSpaceTail_len (ifOpt_some hopt2)
      simp only [List.length_cons] at hr
      rw [hgScanF_fuel rest.length r false r.length (by omega) (by omega)]
    | none => rfl

theorem hgScan_nil (b : Bool) : hgScan [] b = [] := rfl

theorem hgScanF_sfx : ∀ (n : Nat) (l : List Char) (b : Bool) (cap : List Char),
    cap ∈ hgScanF n l b → ∃ q, cap = q ++ ['.', 'p', 'y'] := by
  intro n
  induction n with
  | zero => intro l b cap h; simp [hgScanF] at h
  | succ n ih =>
    intro l b cap h
    cases l with
    | nil => simp [hgScanF] at h
    | cons c rest =>
      simp only [hgScanF] at h
      cases hopt1 : (if c = '\n' then optSpaceTail rest else none) with
      | some pr =>
        obtain ⟨cap0, r⟩ := pr
        rw [hopt1] at h
        simp only at h
        rcases List.mem_cons.mp h with h | h
        · subst h
          exact optSpaceTail_shape (ifOpt_some hopt1)
        · exact ih r false cap h
      | none =>
        rw [hopt1] at h
        simp only at h
        cases hopt2 : (if b = true then optSpaceTail (c :: rest) else none) with
        | some pr =>
          obtain ⟨cap0, r⟩ := pr
          rw [hopt2] at h
          simp only at h
          rcases List.mem_cons.mp h with h | h
          · subst h
            exact optSpaceTail_shape (ifOpt_some hopt2)
          · exact ih r false cap h
        | none =>
          rw [hopt2] at h
          simp only at h
          exact ih rest false cap h

/-! ## Lemmas about the Bazaar matcher -/

theorem bzrCapStep_sfx {l : List Char} {k : Nat} {cap : List Char}
    (h : bzrCapStep l k = some cap) : ['p', 'y'] <:+ cap := by
  unfold bzrCapStep at h
  split at h
  next a t heq =>
    split at h
    · simp at h
    · injection h with h2
      subst h2
      have h3 : l.take (k + 3) = l.take k ++ [a, 'p', 'y'] := by
        rw [List.take_add, heq]
        rfl
      exact ⟨l.take k ++ [a], by rw [h3]; simp⟩
  · simp at h

theorem bzrCap_sfx {l cap : List Char} :
    ∀ {k : Nat}, bzrCap l k = some cap → ['p', 'y'] <:+ cap := by
  intro k
  induction k with
  | zero => intro h; exact bzrCapStep_sfx h
  | succ k ih =>
    intro h
    simp only [bzrCap] at h
    split at h
    next res heq =>
      injection h with h2
      subst h2
      exact bzrCapStep_sfx heq
    · exact ih h

theorem bzrWsCap_sfx {l cap : List Char} :
    ∀ {j : Nat}, bzrWsCap l j = some cap → ['p', 'y'] <:+ cap := by
  intro j
  induction j with
  | zero => intro h; simp [bzrWsCap] at h
  | succ j ih =>
    intro h
    simp only [bzrWsCap] at h
    split at h
    next res heq =>
      injection h with h2
      subst h2
      exact bzrCap_sfx heq
    · exact ih h

theorem bzrNSCap_sfx {l cap : List Char} :
    ∀ {i : Nat}, bzrNSCap l i = some cap → ['p', 'y'] <:+ cap := by
  intro i
  induction i with
  | zero => intro h; simp [bzrNSCap] at h
  | succ i ih =>
    intro h
    simp only [bzrNSCap] at h
    split at h
    next res heq =>
      injection h with h2
      subst h2
      exact bzrWsCap_sfx heq
    · exact ih h

theorem bzrFirstMatch_sfx {cap : List Char} :
    ∀ {l : List Char}, bzrFirstMatch l = some cap → ['p', 'y'] <:+ cap := by
  intro l
  induction l with
  | nil => intro h; simp [bzrFirstMatch] at h
  | cons c rest ih =>
    intro h
    simp only [bzrFirstMatch] at h
    split at h
    next res heq =>
      injection h with h2
      subst h2
      exact bzrNSCap_sfx heq
    · exact ih h

theorem bzrParseLine_sfx {line f : String} (h : bzrParseLine line = some f) :
    ['p', 'y'] <:+ f.data := by
  simp only [bzrParseLine] at h
  split at h
  next cap heq =>
    split at h
    · simp at h
    · injection h with h2
      subst h2
      exact bzrFirstMatch_sfx heq
  · simp at h

/-! ## Claim C1 -/

/-- C1, counterexample: the claim "for every backend driver and every
input text, `parse_diff_filenames` returns only paths ending in `.py`"
fails for the Git driver, whose parser is a bare `splitlines` with no
filtering: on input `"b.txt"` it returns `["b.txt"]`, which does not end
in `.py`. -/
theorem c1_counterexample :
    Git.parse_diff_filenames "b.txt" = ["b.txt"] ∧
      ¬ (['.', 'p', 'y'] <:+ ("b.txt" : String).data) :=
  ⟨by rfl, by decide⟩

/-- C1 (amended): only the Mercurial parser guarantees the `.py` suffix of
every returned path; the Bazaar parser (whose regex `.*.py` has an
unescaped dot) guarantees only the suffix `py`, and the Git parser is an
unfiltered line split.  Formally: every string returned by
`Hg.parse_diff_filenames` ends in `.py` and every string returned by
`Bzr.parse_diff_filenames` ends in `py`, for every input text. -/
theorem c1_parse_filters :
    ∀ (s f : String),
      (f ∈ Hg.parse_diff_filenames s → ['.', 'p', 'y'] <:+ f.data) ∧
      (f ∈ Bzr.parse_diff_filenames s → ['p', 'y'] <:+ f.data) := by
  intro s f
  constructor
  · intro hf
    unfold Hg.parse_diff_filenames at hf
    rcases List.mem_map.mp hf with ⟨cap, hcap, hmk⟩
    rcases hgScanF_sfx _ _ _ cap hcap with ⟨q, hq⟩
    exact ⟨q, by rw [← hmk, hq]⟩
  · intro hf
    unfold Bzr.parse_diff_filenames at hf
    rcases List.mem_filterMap.mp hf with ⟨line, _, hline⟩
    exact bzrParseLine_sfx hline

/-- C1, witness: the amended theorem applied to the Mercurial fixture
`" a.py | 2 +-\n"` at `"a.py"` and the Bazaar fixture `"M  0.py\n"` at
`"0.py"`. -/
theorem c1_witness :
    ['.', 'p', 'y'] <:+ ("a.py" : String).data ∧
      ['p', 'y'] <:+ ("0.py" : String).data :=
  ⟨(c1_parse_filters " a.py | 2 +-\n" "a.py").1 (by decide),
   (c1_parse_filters "M  0.py\n" "0.py").2 (by decide)⟩

/-! ## Claim C2 -/

/-- C2, counterexample: with no revision requested, revision resolution
(`_branch_point` with `rev=None`) returns the repository's current branch
tip — two environments whose `git rev-parse HEAD` answers differ give two
different resolved tokens, so no fixed "no base" sentinel is returned —
and the per-file diff command always carries the resolved revision
argument instead of omitting it. -/
theorem c2_counterexample :
    (VersionControl._branch_point .git envGitA "/repo" none).1 = .ok "abc" ∧
      (VersionControl._branch_point .git envGitB "/repo" none).1 = .ok "xyz" ∧
      ("abc" : String) ≠ "xyz" ∧
      Git.file_diff_cmd "abc" "f.py" = ["git", "diff", "abc", "f.py"] ∧
      Git.file_diff_cmd "abc" "f.py" ≠ ["git", "diff", "f.py"] :=
  ⟨by rfl, by rfl, by decide, by rfl, by decide⟩

/-- C2 (amended): when no revision is requested, `_branch_point` resolves
to exactly the backend's current branch tip (the result of
`current_branch`), and every diff command of every backend includes the
resolved revision as an argument; no diff command omits it. -/
theorem c2_branch_point_none :
    ∀ (vcs : VCS) (env : ShellEnv) (root : String),
      VersionControl._branch_point vcs env root none =
        VersionControl.current_branch vcs env root ∧
      ∀ rev f : String,
        rev ∈ Git.file_diff_cmd rev f ∧ rev ∈ Git.filenames_diff_cmd rev ∧
        rev ∈ Hg.file_diff_cmd rev f ∧ rev ∈ Hg.filenames_diff_cmd rev ∧
        rev ∈ Bzr.file_diff_cmd rev f ∧ rev ∈ Bzr.filenames_diff_cmd rev := by
  intro vcs env root
  constructor
  · rcases hcb : VersionControl.current_branch vcs env root with ⟨r, t⟩
    unfold VersionControl._branch_point
    rw [hcb]
    cases r <;> rfl
  · intro rev f
    refine ⟨?_, ?_, ?_, ?_, ?_, ?_⟩ <;>
      simp [Git.file_diff_cmd, Git.filenames_diff_cmd, Hg.file_diff_cmd,
        Hg.filenames_diff_cmd, Bzr.file_diff_cmd, Bzr.filenames_diff_cmd]

/-! ## Claim C10 -/

/-- C10: constructing a driver with an explicit root stores it verbatim
and invokes no backend command (empty trace); with no root argument the
construction is exactly `root_dir` with its default `cwd=None`, whose
command runs and whose failure fails the construction. -/
theorem c10_init : ∀ (vcs : VCS) (env : ShellEnv) (r : String),
    VersionControl.init vcs env (some r) = (.ok r, []) ∧
      VersionControl.init vcs env none = VersionControl.root_dir vcs env none := by
  intro vcs env r
  exact ⟨rfl, rfl⟩

/-! ## Claim C9 -/

/-- C9, counterexample: `"GIT"` is not in the known tag set
`{git, hg, bzr}`, yet `from_string` resolves it to the Git driver
(`globals()[vc.title()]` title-cases the input, making resolution
case-insensitive), instead of failing. -/
theorem c9_counterexample :
    ("GIT" : String) ∉ (["git", "hg", "bzr"] : List String) ∧
      VersionControl.from_string "GIT" = .ok .git :=
  ⟨by decide, by rfl⟩

/-- C9 (amended): `from_string` maps each known tag to its driver, and
fails with `NotImplementedError` exactly on the strings whose title-case
form is none of `Git`, `Hg`, `Bzr`; resolution is therefore
case-insensitive rather than limited to the lowercase tags. -/
theorem c9_from_string :
    VersionControl.from_string "git" = .ok .git ∧
      VersionControl.from_string "hg" = .ok .hg ∧
      VersionControl.from_string "bzr" = .ok .bzr ∧
      ∀ vc : String, pyTitle vc ∉ (["Git", "Hg", "Bzr"] : List String) →
        VersionControl.from_string vc =
          .error (.notImplemented "Unknown version control system.") := by
  refine ⟨rfl, rfl, rfl, ?_⟩
  intro vc h
  unfold VersionControl.from_string
  split
  · next heq => exact absurd (by rw [heq]; decide) h
  · next heq => exact absurd (by rw [heq]; decide) h
  · next heq => exact absurd (by rw [heq]; decide) h
  · rfl

/-- C9, witness: the amended theorem applied at `"svn"`. -/
theorem c9_witness :
    VersionControl.from_string "svn" =
      .error (.notImplemented "Unknown version control system.") :=
  c9_from_string.2.2.2 "svn" (by decide)

/-! ## Claim C8 -/

/-- C8, counterexample: `Hg.root_dir` returns the `hg root` output
verbatim; on a repository whose tool prints the unnormalized `"/a/./b"`
the result is not in normalized form (`normpath` would give `"/a/b"`). -/
theorem c8_counterexample :
    (VersionControl.root_dir .hg envHg none).1 = .ok "/a/./b" ∧
      normpath "/a/./b" = "/a/b" ∧ ("/a/./b" : String) ≠ "/a/b" :=
  ⟨by rfl, by rfl, by decide⟩

/-- C8 (amended): every backend's `root_dir` runs its print-root command
from the given `cwd` (`none` = the process's current directory); Git
passes the output through `os.path.normpath`, while Mercurial and Bazaar
return the command output verbatim, without normalization. -/
theorem c8_root_dir :
    ∀ (env : ShellEnv) (cwd : Option String),
      (∀ out, env.shell_out ["git", "rev-parse", "--show-toplevel"] cwd = .ok out →
        VersionControl.root_dir .git env cwd =
          (.ok (normpath out), [⟨["git", "rev-parse", "--show-toplevel"], cwd, false⟩])) ∧
      (∀ out, env.shell_out ["hg", "root"] cwd = .ok out →
        VersionControl.root_dir .hg env cwd =
          (.ok out, [⟨["hg", "root"], cwd, false⟩])) ∧
      (∀ out, env.shell_out ["bzr", "root"] cwd = .ok out →
        VersionControl.root_dir .bzr env cwd =
          (.ok out, [⟨["bzr", "root"], cwd, false⟩])) := by
  intro env cwd
  refine ⟨?_, ?_, ?_⟩ <;>
    · intro out hout
      unfold VersionControl.root_dir shellCall
      rw [hout]
      try rfl

/-- C8, witness: the amended theorem's Mercurial part applied to the
environment whose `hg root` prints `"/a/./b"`. -/
theorem c8_witness :
    VersionControl.root_dir .hg envHg none =
      (.ok "/a/./b", [⟨["hg", "root"], none, false⟩]) :=
  (c8_root_dir envHg none).2.1 "/a/./b" (by rfl)

/-! ## Claims C3, C4, C5 -/

theorem pyRsplitSpace1_append {pre tok : List Char} (h : ' ' ∉ tok) :
    pyRsplitSpace1 (pre ++ ' ' :: tok) = some tok := by
  unfold pyRsplitSpace1
  rw [if_pos (by simp)]
  have h1 : (pre ++ ' ' :: tok).reverse = tok.reverse ++ ' ' :: pre.reverse := by
    simp
  rw [h1]
  have h2 : ∀ a ∈ tok.reverse, (decide (a ≠ ' ')) = true := by
    intro a ha
    simp only [List.mem_reverse] at ha
    simp only [decide_eq_true_eq]
    intro he
    exact h (he ▸ ha)
  rw [List.takeWhile_append_of_pos h2]
  simp

theorem bzr_mb_log_err {env : ShellEnv} {root rev1 rev2 : String} {e : ShellErr}
    (he : env.shell_out ["bzr", "log", "-c", rev1] (some root) = .error e) :
    Bzr.merge_base env root rev1 rev2 =
      (.error (.shell e), [⟨["bzr", "log", "-c", rev1], some root, false⟩]) := by
  unfold Bzr.merge_base shellCall
  rw [he]

theorem bzr_mb_trace_ok {env : ShellEnv} {root rev1 rev2 s : String}
    (hs : env.shell_out ["bzr", "log", "-c", rev1] (some root) = .ok s) :
    (Bzr.merge_base env root rev1 rev2).2 =
      [⟨["bzr", "log", "-c", rev1], some root, false⟩,
       ⟨["bzr", "find-merge-base", rev1, rev2], some root, true⟩] := by
  unfold Bzr.merge_base shellCall shellCallIgnore
  rw [hs]
  rfl

theorem bzr_mb_ok {env : ShellEnv} {root rev1 rev2 s out : String}
    (hs : env.shell_out ["bzr", "log", "-c", rev1] (some root) = .ok s)
    (hf : env.shell_out_ignore_exitcode ["bzr", "find-merge-base", rev1, rev2]
      (some root) = .ok out) :
    (Bzr.merge_base env root rev1 rev2).1 =
      match pyRsplitSpace1 out.data with
      | some tok => .ok (String.mk tok)
      | none => .error .indexError := by
  unfold Bzr.merge_base shellCall shellCallIgnore
  rw [hs, hf]

/-- C3: the Bazaar merge-base protocol. (a) When validating `rev1` via
`bzr log -c rev1` fails, that typed failure propagates and
`find-merge-base` is never invoked: the command trace holds only the log
command. (b) When validation succeeds, `find-merge-base` is invoked
through the exit-code-ignoring adapter (trace = log then find-merge-base
with the ignore flag), and an output of sentence form
`"... is revision <tok>"` yields exactly the trailing space-delimited
token. (c) Hence if `rev2` is unknown and the tool substitutes `rev1`,
printing a sentence whose trailing token is `rev1`, the function returns
`rev1` unchanged rather than failing. -/
theorem c3_bzr_merge_base :
    ∀ (env : ShellEnv) (root rev1 rev2 : String),
      (∀ e, env.shell_out ["bzr", "log", "-c", rev1] (some root) = .error e →
        Bzr.merge_base env root rev1 rev2 =
          (.error (.shell e), [⟨["bzr", "log", "-c", rev1], some root, false⟩])) ∧
      (∀ s, env.shell_out ["bzr", "log", "-c", rev1] (some root) = .ok s →
        (Bzr.merge_base env root rev1 rev2).2 =
          [⟨["bzr", "log", "-c", rev1], some root, false⟩,
           ⟨["bzr", "find-merge-base", rev1, rev2], some root, true⟩] ∧
        (∀ (pre tok : List Char), ' ' ∉ tok →
          env.shell_out_ignore_exitcode ["bzr", "find-merge-base", rev1, rev2]
              (some root) = .ok (String.mk (pre ++ ' ' :: tok)) →
          (Bzr.merge_base env root rev1 rev2).1 = .ok (String.mk tok)) ∧
        (∀ (pre : List Char), ' ' ∉ rev1.data →
          env.shell_out_ignore_exitcode ["bzr", "find-merge-base", rev1, rev2]
              (some root) = .ok (String.mk (pre ++ ' ' :: rev1.data)) →
          (Bzr.merge_base env root rev1 rev2).1 = .ok rev1)) := by
  intro env root rev1 rev2
  refine ⟨fun e he => bzr_mb_log_err he, fun s hs => ⟨bzr_mb_trace_ok hs, ?_, ?_⟩⟩
  · intro pre tok htok hf
    rw [bzr_mb_ok hs hf, pyRsplitSpace1_append htok]
  · intro pre hrev hf
    rw [bzr_mb_ok hs hf, pyRsplitSpace1_append hrev]

/-- C3, witness: the theorem applied to a concrete environment where
`r1` is invalid (part a) and to one where `bzr find-merge-base r1 r2`
answers `"merge base is revision r1"` (parts b and c). -/
theorem c3_witness :
    Bzr.merge_base envBzrBadRev "/repo" "badrev" "r2" =
      (.error (.shell .calledProcessError),
       [⟨["bzr", "log", "-c", "badrev"], some "/repo", false⟩]) ∧
    (Bzr.merge_base envBzrOk "/repo" "r1" "r2").2 =
      [⟨["bzr", "log", "-c", "r1"], some "/repo", false⟩,
       ⟨["bzr", "find-merge-base", "r1", "r2"], some "/repo", true⟩] ∧
    (Bzr.merge_base envBzrOk "/repo" "r1" "r2").1 = .ok "r1" :=
  ⟨(c3_bzr_merge_base envBzrBadRev "/repo" "badrev" "r2").1 .calledProcessError (by rfl),
   ((c3_bzr_merge_base envBzrOk "/repo" "r1" "r2").2 "log entry" (by rfl)).1,
   ((c3_bzr_merge_base envBzrOk "/repo" "r1" "r2").2 "log entry" (by rfl)).2.2
     ("merge base is revision".data) (by decide) (by rfl)⟩

theorem pySplitChar_no {sep : Char} : ∀ {l : List Char}, sep ∉ l →
    pySplitChar sep l = [l] := by
  intro l
  induction l with
  | nil => intro _; rfl
  | cons c rest ih =>
    intro h
    simp only [List.mem_cons, not_or] at h
    obtain ⟨h1, h2⟩ := h
    simp only [pySplitChar, ih h2]
    rw [if_neg (by intro he; exact h1 he.symm)]

theorem pySplitChar_ne_nil {sep : Char} : ∀ {l : List Char}, pySplitChar sep l ≠ [] := by
  intro l
  cases l with
  | nil => simp [pySplitChar]
  | cons c rest =>
    simp only [pySplitChar]
    split
    · simp
    · split <;> simp

theorem pySplitChar_split {sep : Char} {b : List Char} :
    ∀ {a : List Char}, sep ∉ a →
      pySplitChar sep (a ++ sep :: b) = a :: pySplitChar sep b := by
  intro a
  induction a with
  | nil =>
    intro _
    simp only [List.nil_append, pySplitChar]
    split
    · next heq => exact absurd heq pySplitChar_ne_nil
    · next h t heq => simp [← heq]
  | cons c rest ih =>
    intro h
    simp only [List.mem_cons, not_or] at h
    obtain ⟨h1, h2⟩ := h
    simp only [List.cons_append, pySplitChar, List.append_eq, ih h2]
    rw [if_neg (by intro he; exact h1 he.symm)]

/-- C5: `Hg.merge_base` invokes `hg debugancestor rev1 rev2` (with
`cwd=self.root`) and, when the output has the colon-delimited form
`revnum:hash` (neither half containing a colon), returns exactly the hash
half. -/
theorem c5_hg_merge_base :
    ∀ (env : ShellEnv) (root rev1 rev2 : String) (a b : List Char),
      ':' ∉ a → ':' ∉ b →
      env.shell_out ["hg", "debugancestor", rev1, rev2] (some root) =
        .ok (String.mk (a ++ ':' :: b)) →
      Hg.merge_base env root rev1 rev2 =
        (.ok (String.mk b), [⟨["hg", "debugancestor", rev1, rev2], some root, false⟩]) := by
  intro env root rev1 rev2 a b ha hb hout
  unfold Hg.merge_base shellCall
  rw [hout]
  have hd : (String.mk (a ++ ':' :: b)).data = a ++ ':' :: b := rfl
  simp only [hd, pySplitChar_split ha, pySplitChar_no hb]
  rfl

/-- C5, witness: on ancestor-debug output `"123:deadbeef1234"` the result
is `"deadbeef1234"`. -/
theorem c5_witness :
    Hg.merge_base envHg "/repo" "r1" "r2" =
      (.ok "deadbeef1234", [⟨["hg", "debugancestor", "r1", "r2"], some "/repo", false⟩]) :=
  c5_hg_merge_base envHg "/repo" "r1" "r2" "123".data "deadbeef1234".data
    (by decide) (by decide) (by rfl)

/-- C4: backend auto-detection: `which` probes the backends in the fixed
module-definition order git, hg, bzr by running each backend's `log`
command; the first successful probe selects that backend's driver class;
when no probe succeeds the result is the typed `NotImplementedError`; and
the recorded command trace is exactly the probes run, in order, stopping
at the first success. -/
theorem c4_which :
    ∀ env : ShellEnv,
      ((VersionControl.which env).1 = .ok .git ↔ (using_git env).1 = true) ∧
      ((VersionControl.which env).1 = .ok .hg ↔
        ((using_git env).1 = false ∧ (using_hg env).1 = true)) ∧
      ((VersionControl.which env).1 = .ok .bzr ↔
        ((using_git env).1 = false ∧ (using_hg env).1 = false ∧
          (using_bzr env).1 = true)) ∧
      ((using_git env).1 = false → (using_hg env).1 = false →
        (using_bzr env).1 = false →
        (VersionControl.which env).1 = .error (.notImplemented
          "Unknown version control system, or you're not in the project directory.")) ∧
      (VersionControl.which env).2 =
        ⟨["git", "log"], none, false⟩ ::
          (if (using_git env).1 then [] else
            ⟨["hg", "log"], none, false⟩ ::
              (if (using_hg env).1 then [] else [⟨["bzr", "log"], none, false⟩])) := by
  intro env
  have e1 : VersionControl.from_string "git" = .ok .git := rfl
  have e2 : VersionControl.from_string "hg" = .ok .hg := rfl
  have e3 : VersionControl.from_string "bzr" = .ok .bzr := rfl
  have t1 : (using_git env).2 = [⟨["git", "log"], none, false⟩] := rfl
  have t2 : (using_hg env).2 = [⟨["hg", "log"], none, false⟩] := rfl
  have t3 : (using_bzr env).2 = [⟨["bzr", "log"], none, false⟩] := rfl
  cases hg : (using_git env).1 <;> cases hh : (using_hg env).1 <;>
    cases hb : (using_bzr env).1 <;>
      simp [VersionControl.which, hg, hh, hb, e1, e2, e3, t1, t2, t3]

/-- C4, witness: in an environment where no probe succeeds, detection
fails with the typed error. -/
theorem c4_witness :
    (VersionControl.which envGitA).1 = .error (.notImplemented
      "Unknown version control system, or you're not in the project directory.") :=
  (c4_which envGitA).2.2.2.1 rfl rfl rfl

/-! ## Claim C7 -/

theorem takeWhile_all {pr : Char → Bool} :
    ∀ {l : List Char}, (∀ x ∈ l, pr x = true) → l.takeWhile pr = l := by
  intro l
  induction l with
  | nil => intro _; rfl
  | cons c rest ih =>
    intro h
    rw [List.takeWhile_cons_of_pos (h c (by simp)), ih (fun x hx => h x (by simp [hx]))]

theorem takeWhile_append_eq {pr : Char → Bool} {a b : List Char}
    (ha : ∀ x ∈ a, pr x = true) (hb : ∀ x, b.head? = some x → pr x = false) :
    (a ++ b).takeWhile pr = a := by
  rw [List.takeWhile_append_of_pos ha]
  cases b with
  | nil => simp
  | cons x xs =>
    rw [List.takeWhile_cons_of_neg (by simp [hb x rfl])]
    simp

theorem dropWhile_head_eq {pr : Char → Bool} {l : List Char}
    (h : ∀ x, l.head? = some x → pr x = false) : l.dropWhile pr = l := by
  cases l with
  | nil => rfl
  | cons x xs => exact List.dropWhile_cons_of_neg (by simp [h x rfl])

theorem pyStrip_eq {l : List Char}
    (h1 : ∀ c, l.head? = some c → isWS c = false)
    (h2 : ∀ c, l.getLast? = some c → isWS c = false) :
    pyStrip (String.mk l) = String.mk l := by
  unfold pyStrip
  have hd : (String.mk l).data = l := rfl
  rw [hd, dropWhile_head_eq h1, dropWhile_head_eq (fun c hc => h2 c (by
    rw [← List.head?_reverse]; exact hc)), List.reverse_reverse]

theorem bzrCap_succ (l : List Char) (k : Nat) :
    bzrCap l (k + 1) =
      match bzrCapStep l (k + 1) with
      | some cap => some cap
      | none => bzrCap l k := rfl

theorem bzrWsCap_succ (l : List Char) (j : Nat) :
    bzrWsCap l (j + 1) =
      match bzrCap (l.drop (j + 1)) (countNonNL (l.drop (j + 1))) with
      | some cap => some cap
      | none => bzrWsCap l j := rfl

theorem bzrNSCap_succ (l : List Char) (i : Nat) :
    bzrNSCap l (i + 1) =
      match bzrWsCap (l.drop (i + 1)) (countWS (l.drop (i + 1))) with
      | some cap => some cap
      | none => bzrNSCap l i := rfl

theorem bzrFirstMatch_cons (c : Char) (rest : List Char) :
    bzrFirstMatch (c :: rest) =
      match bzrNSCap (c :: rest) (countNS (c :: rest)) with
      | some cap => some cap
      | none => bzrFirstMatch rest := rfl

/-- On a path of the shape `q ++ ".py"` with no newline, the greedy
capture descent stops at the suffix: the capture is the whole path. -/
theorem bzrCap_full {q : List Char} :
    bzrCap (q ++ ['.', 'p', 'y']) (q.length + 3) = some (q ++ ['.', 'p', 'y']) := by
  have hlen : (q ++ ['.', 'p', 'y']).length = q.length + 3 := by simp
  have hdrop : ∀ i, (q ++ ['.', 'p', 'y']).drop (q.length + i) =
      (['.', 'p', 'y'] : List Char).drop i := fun i => List.drop_append i
  have h3 : bzrCapStep (q ++ ['.', 'p', 'y']) (q.length + 3) = none := by
    unfold bzrCapStep
    rw [hdrop 3]
    rfl
  have h2 : bzrCapStep (q ++ ['.', 'p', 'y']) (q.length + 2) = none := by
    unfold bzrCapStep
    rw [hdrop 2]
    rfl
  have h1 : bzrCapStep (q ++ ['.', 'p', 'y']) (q.length + 1) = none := by
    unfold bzrCapStep
    rw [hdrop 1]
    rfl
  have h0 : bzrCapStep (q ++ ['.', 'p', 'y']) q.length = some (q ++ ['.', 'p', 'y']) := by
    unfold bzrCapStep
    rw [List.drop_left]
    rw [show (q ++ ['.', 'p', 'y']).take (q.length + 3) = q ++ ['.', 'p', 'y'] from by
      rw [← hlen, List.take_length]]
    rfl
  have e3 : bzrCap (q ++ ['.', 'p', 'y']) (q.length + 3) =
      bzrCap (q ++ ['.', 'p', 'y']) (q.length + 2) := by
    rw [bzrCap_succ (q ++ ['.', 'p', 'y']) (q.length + 2), h3]
  have e2 : bzrCap (q ++ ['.', 'p', 'y']) (q.length + 2) =
      bzrCap (q ++ ['.', 'p', 'y']) (q.length + 1) := by
    rw [bzrCap_succ (q ++ ['.', 'p', 'y']) (q.length + 1), h2]
  have e1 : bzrCap (q ++ ['.', 'p', 'y']) (q.length + 1) =
      bzrCap (q ++ ['.', 'p', 'y']) q.length := by
    rw [bzrCap_succ (q ++ ['.', 'p', 'y']) q.length, h1]
  rw [e3, e2, e1]
  cases hq : q.length with
  | zero => rw [show bzrCap (q ++ ['.', 'p', 'y']) 0 = bzrCapStep (q ++ ['.', 'p', 'y']) 0 from rfl,
      ← hq, h0]
  | succ m =>
    rw [← hq, show bzrCap (q ++ ['.', 'p', 'y']) q.length =
      bzrCap (q ++ ['.', 'p', 'y']) (m + 1) from by rw [hq],
      bzrCap_succ (q ++ ['.', 'p', 'y']) m, show m + 1 = q.length from hq.symm, h0]

/-- C7: `Bzr.parse_diff_filenames` (i) never emits anything for a line
whose stripped text starts with the untracked marker `'?'`; (ii) for a
well-formed status line, change-code column, then spaces, then a path
ending in `.py` (the code whitespace-free and not starting with `'?'`,
the path whitespace-free), it emits exactly that path; and (iii) on the
fixture `"?   .gitignore\nM  0.py\n"` it returns exactly `["0.py"]`. -/
theorem c7_bzr_status_lines :
    (∀ line : String, (pyStrip line).data.head? = some '?' → bzrParseLine line = none) ∧
    (∀ code sep q : List Char, code ≠ [] → code.head? ≠ some '?' →
      (∀ x ∈ code, isWS x = false) → sep ≠ [] → (∀ x ∈ sep, x = ' ') →
      (∀ x ∈ q ++ ['.', 'p', 'y'], isWS x = false) →
      bzrParseLine (String.mk (code ++ (sep ++ (q ++ ['.', 'p', 'y'])))) =
        some (String.mk (q ++ ['.', 'p', 'y']))) ∧
    Bzr.parse_diff_filenames "?   .gitignore\nM  0.py\n" = ["0.py"] := by
  refine ⟨?_, ?_, by rfl⟩
  · intro line h
    simp only [bzrParseLine]
    split
    · rw [if_pos h]
    · rfl
  · intro code sep q hc hcq hcw hs hsw hpw
    have hnw : ∀ x ∈ (['.', 'p', 'y'] : List Char), isWS x = false := by decide
    -- characters of the path are not newlines, spaces etc.
    have hpy : ∀ x ∈ q ++ ['.', 'p', 'y'], (decide (x ≠ '\n')) = true := by
      intro x hx
      simp only [decide_eq_true_eq]
      intro he
      subst he
      have := hpw _ hx
      simp [isWS] at this
    have hcns : ∀ x ∈ code, (decide (x ≠ ' ')) = true := by
      intro x hx
      simp only [decide_eq_true_eq]
      intro he
      subst he
      have := hcw _ hx
      simp [isWS] at this
    have hsws : ∀ x ∈ sep, isWS x = true := by
      intro x hx
      rw [hsw x hx]
      rfl
    -- the stripped line is the line itself
    obtain ⟨c0, code', hc0⟩ : ∃ c0 code', code = c0 :: code' := by
      cases code with
      | nil => exact absurd rfl hc
      | cons a b => exact ⟨a, b, rfl⟩
    obtain ⟨s0, sep', hs0⟩ : ∃ s0 sep', sep = s0 :: sep' := by
      cases sep with
      | nil => exact absurd rfl hs
      | cons a b => exact ⟨a, b, rfl⟩
    -- countNS of the full line is the code length
    have hcNS : countNS (code ++ (sep ++ (q ++ ['.', 'p', 'y']))) = code.length := by
      unfold countNS
      rw [takeWhile_append_eq hcns (by
        intro x hx
        rw [hs0] at hx
        simp only [List.cons_append, List.head?_cons, Option.some.injEq] at hx
        subst hx
        rw [hsw s0 (by rw [hs0]; simp)]
        rfl)]
    -- after dropping the code, countWS is the separator length
    have hdc : (code ++ (sep ++ (q ++ ['.', 'p', 'y']))).drop code.length =
        sep ++ (q ++ ['.', 'p', 'y']) := List.drop_left _ _
    have hcWS : countWS (sep ++ (q ++ ['.', 'p', 'y'])) = sep.length := by
      unfold countWS
      rw [takeWhile_append_eq hsws (by
        intro x hx
        cases hq : q with
        | nil =>
          rw [hq] at hx
          simp only [List.nil_append, List.head?_cons, Option.some.injEq] at hx
          subst hx
          rfl
        | cons a b =>
          rw [hq] at hx
          simp only [List.cons_append, List.head?_cons, Option.some.injEq] at hx
          subst hx
          exact hpw a (by rw [hq]; simp))]
    -- dropping the separator exposes the path
    have hds : (sep ++ (q ++ ['.', 'p', 'y'])).drop sep.length =
        q ++ ['.', 'p', 'y'] := List.drop_left _ _
    -- countNonNL of the path is its length
    have hcNL : countNonNL (q ++ ['.', 'p', 'y']) = q.length + 3 := by
      unfold countNonNL
      rw [takeWhile_all hpy]
      simp
    -- the whitespace-then-capture stage succeeds
    have hws : bzrWsCap (sep ++ (q ++ ['.', 'p', 'y'])) sep.length =
        some (q ++ ['.', 'p', 'y']) := by
      have hlen : sep.length = sep'.length + 1 := by rw [hs0]; rfl
      rw [hlen, bzrWsCap_succ, ← hlen, hds, hcNL, bzrCap_full]
    -- the code-then-rest stage succeeds
    have hns : bzrNSCap (code ++ (sep ++ (q ++ ['.', 'p', 'y']))) code.length =
        some (q ++ ['.', 'p', 'y']) := by
      have hlen : code.length = code'.length + 1 := by rw [hc0]; rfl
      rw [hlen, bzrNSCap_succ, ← hlen, hdc, hcWS, hws]
    -- the first match of the scan is at position 0
    have hfm : bzrFirstMatch (code ++ (sep ++ (q ++ ['.', 'p', 'y']))) =
        some (q ++ ['.', 'p', 'y']) := by
      rw [hc0, List.cons_append, bzrFirstMatch_cons,
        show c0 :: (code' ++ (sep ++ (q ++ ['.', 'p', 'y']))) =
          code ++ (sep ++ (q ++ ['.', 'p', 'y'])) from by rw [hc0, List.cons_append],
        hcNS, hns]
    -- strip is the identity on this line
    have hstrip : pyStrip (String.mk (code ++ (sep ++ (q ++ ['.', 'p', 'y'])))) =
        String.mk (code ++ (sep ++ (q ++ ['.', 'p', 'y']))) := by
      apply pyStrip_eq
      · intro c hch
        rw [hc0] at hch
        simp only [List.cons_append, List.head?_cons, Option.some.injEq] at hch
        subst hch
        exact hcw c0 (by rw [hc0]; simp)
      · intro c hch
        rw [List.getLast?_append] at hch
        have : (q ++ ['.', 'p', 'y']).getLast? = some 'y' := by
          rw [List.getLast?_append]
          rfl
        rw [List.getLast?_append, this] at hch
        simp only [Option.or_some, Option.some.injEq] at hch
        subst hch
        rfl
    -- assemble
    simp only [bzrParseLine, hstrip, hfm]
    rw [if_neg (by
      intro hh
      rw [hc0] at hh
      simp only [List.cons_append, List.head?_cons, Option.some.injEq] at hh
      exact hcq (by rw [hc0]; simp [hh]))]

/-- C7, witness: the theorem applied to the untracked line `"? x.py"`
(excluded) and to the well-formed line `"M" ++ "  " ++ "0.py"` (kept). -/
theorem c7_witness :
    bzrParseLine "? x.py" = none ∧
      bzrParseLine (String.mk ("M".data ++ ("  ".data ++ ("0".data ++ ['.', 'p', 'y'])))) =
        some (String.mk ("0".data ++ ['.', 'p', 'y'])) :=
  ⟨c7_bzr_status_lines.1 "? x.py" (by decide),
   c7_bzr_status_lines.2.1 "M".data "  ".data "0".data (by decide) (by decide)
     (by decide) (by decide) (by decide) (by decide)⟩

/-! ## Claim C6: characterising the scan on well-formed diff-stat lines -/

theorem tryPy_eq_none {l : List Char} :
    ∀ {k : Nat}, (∀ k' ≤ k, tryPyStep l k' = none) → tryPy l k = none := by
  intro k
  induction k with
  | zero => intro h; exact h 0 (Nat.le_refl 0)
  | succ k ih =>
    intro h
    simp only [tryPy, h (k + 1) (Nat.le_refl _)]
    exact ih fun k' hk' => h k' (Nat.le_succ_of_le hk')

theorem tryPy_eq_some {l : List Char} {v : List Char × List Char} {k : Nat} :
    ∀ {K : Nat}, tryPyStep l k = some v →
      (∀ k', k < k' → k' ≤ K → tryPyStep l k' = none) → k ≤ K →
      tryPy l K = some v := by
  intro K
  induction K with
  | zero =>
    intro hk _ hkK
    have h0 : k = 0 := Nat.le_zero.mp hkK
    subst h0
    exact hk
  | succ K ih =>
    intro hk hup hkK
    by_cases hK : k = K + 1
    · subst hK
      simp only [tryPy, hk]
    · have hlt : k ≤ K := by omega
      simp only [tryPy, hup (K + 1) (by omega) (Nat.le_refl _)]
      exact ih hk (fun k' h1 h2 => hup k' h1 (by omega)) hlt

theorem wsPipe_head_ne {c : Char} {l : List Char} (h : isWS c = false) :
    wsPipe (c :: l) = none := by
  simp [wsPipe, h]

theorem tryPyStep_none_cons {c : Char} {l : List Char} {k : Nat}
    (h : tryPyStep l k = none) : tryPyStep (c :: l) (k + 1) = none := by
  unfold tryPyStep at h ⊢
  rw [List.drop_succ_cons]
  split
  · next rr heq =>
    rw [heq] at h
    have h' : (match wsPipe rr with
        | some r2 => some (l.take (k + 3), r2)
        | none => none) = none := h
    cases hws : wsPipe rr with
    | none => rfl
    | some r2 =>
      rw [hws] at h'
      exact absurd h' (by simp)
  · rfl

theorem tryPyStep_zero_ne {c : Char} {l : List Char} (h : c ≠ '.') :
    tryPyStep (c :: l) 0 = none := by
  unfold tryPyStep
  split
  · next rr heq =>
    rw [List.drop_zero] at heq
    injection heq with h1 _
    exact absurd h1 h
  · rfl

theorem tryPyStep_zero_none {l : List Char}
    (h : ∀ rr, l = '.' :: 'p' :: 'y' :: rr → wsPipe rr = none) :
    tryPyStep l 0 = none := by
  unfold tryPyStep
  split
  · next rr heq =>
    rw [List.drop_zero] at heq
    rw [h rr heq]
  · rfl

theorem tryPyStep_none_append {l : List Char} {k : Nat} :
    ∀ (a : List Char), tryPyStep l k = none →
      tryPyStep (a ++ l) (a.length + k) = none := by
  intro a
  induction a with
  | nil => intro h; simpa using h
  | cons c a' ih =>
    intro h
    have h2 := tryPyStep_none_cons (c := c) (ih h)
    simpa [List.cons_append, show a'.length + 1 + k = a'.length + k + 1 from by omega]
      using h2

theorem tryPyStep_st_none {T : List Char} :
    ∀ (st : List Char), (∀ x ∈ st, x ≠ '.') → ∀ k ≤ st.length,
      tryPyStep (st ++ '\n' :: T) k = none := by
  intro st
  induction st with
  | nil =>
    intro _ k hk
    have h0 : k = 0 := Nat.le_zero.mp hk
    subst h0
    exact tryPyStep_zero_ne (by decide)
  | cons c st' ih =>
    intro hst k hk
    cases k with
    | zero => exact tryPyStep_zero_ne (hst c (by simp))
    | succ k' =>
      have h2 := ih (fun x hx => hst x (by simp [hx])) k' (by simpa using hk)
      simpa using tryPyStep_none_cons h2

theorem tryPyStep_sep_none {st T : List Char} (hst : ∀ x ∈ st, x ≠ '.') :
    ∀ k ≤ 3 + st.length, tryPyStep (' ' :: '|' :: ' ' :: (st ++ '\n' :: T)) k = none := by
  intro k hk
  cases k with
  | zero => exact tryPyStep_zero_ne (by decide)
  | succ k1 =>
    cases k1 with
    | zero => exact tryPyStep_none_cons (tryPyStep_zero_ne (by decide))
    | succ k2 =>
      cases k2 with
      | zero =>
        exact tryPyStep_none_cons (tryPyStep_none_cons (tryPyStep_zero_ne (by decide)))
      | succ j =>
        exact tryPyStep_none_cons (tryPyStep_none_cons (tryPyStep_none_cons
          (tryPyStep_st_none st hst j (by omega))))

theorem tryPyStep_line_none {st T : List Char} (hst : ∀ x ∈ st, x ≠ '.' ∧ x ≠ '\n') :
    ∀ (p : List Char), (∀ x ∈ p, isWS x = false) →
      ¬ (['.', 'p', 'y'] <:+ p) → ∀ k, k ≤ p.length + 3 + st.length →
      tryPyStep (p ++ (' ' :: '|' :: ' ' :: (st ++ '\n' :: T))) k = none := by
  intro p
  induction p with
  | nil =>
    intro _ _ k hk
    exact tryPyStep_sep_none (fun x hx => (hst x hx).1) k (by simpa using hk)
  | cons c p' ih =>
    intro hp hne k hk
    cases k with
    | zero =>
      apply tryPyStep_zero_none
      intro rr heq
      rw [List.cons_append] at heq
      injection heq with hc htail
      subst hc
      cases p' with
      | nil =>
        rw [List.nil_append] at htail
        injection htail with h1 _
        exact absurd h1 (by decide)
      | cons c2 p'' =>
        rw [List.cons_append] at htail
        injection htail with h2 htail2
        subst h2
        cases p'' with
        | nil =>
          rw [List.nil_append] at htail2
          injection htail2 with h3 _
          exact absurd h3 (by decide)
        | cons c3 p''' =>
          rw [List.cons_append] at htail2
          injection htail2 with h3 htail3
          subst h3
          cases p''' with
          | nil => exact absurd ⟨[], rfl⟩ hne
          | cons c4 p4 =>
            rw [List.cons_append] at htail3
            rw [← htail3]
            exact wsPipe_head_ne (hp c4 (by simp))
    | succ k' =>
      rw [List.cons_append]
      apply tryPyStep_none_cons
      exact ih (fun x hx => hp x (by simp [hx]))
        (fun hsf => hne (hsf.trans (List.suffix_cons c p')))
        k' (by simp only [List.length_cons] at hk; omega)

theorem tryPyStep_py_upper {st T : List Char} (hst : ∀ x ∈ st, x ≠ '.') :
    ∀ j, 1 ≤ j → j ≤ 6 + st.length →
      tryPyStep ('.' :: 'p' :: 'y' :: ' ' :: '|' :: ' ' :: (st ++ '\n' :: T)) j = none := by
  intro j h1 h6
  cases j with
  | zero => omega
  | succ j1 =>
    cases j1 with
    | zero => exact tryPyStep_none_cons (tryPyStep_zero_ne (by decide))
    | succ j2 =>
      cases j2 with
      | zero =>
        exact tryPyStep_none_cons (tryPyStep_none_cons (tryPyStep_zero_ne (by decide)))
      | succ j3 =>
        exact tryPyStep_none_cons (tryPyStep_none_cons (tryPyStep_none_cons
          (tryPyStep_sep_none hst j3 (by omega))))

theorem tryPyStep_py_at {q st T : List Char} :
    tryPyStep (q ++ ('.' :: 'p' :: 'y' :: ' ' :: '|' :: ' ' :: (st ++ '\n' :: T)))
        q.length =
      some (q ++ ['.', 'p', 'y'], ' ' :: (st ++ '\n' :: T)) := by
  unfold tryPyStep
  rw [List.drop_left]
  show some ((q ++ ('.' :: 'p' :: 'y' :: ' ' :: '|' :: ' ' :: (st ++ '\n' :: T))).take
    (q.length + 3), ' ' :: (st ++ '\n' :: T)) = _
  rw [List.take_append]
  rfl

theorem countNonNL_line {p st T : List Char} (hp : ∀ x ∈ p, isWS x = false)
    (hst : ∀ x ∈ st, x ≠ '\n') :
    countNonNL (p ++ (' ' :: '|' :: ' ' :: (st ++ '\n' :: T))) =
      p.length + 3 + st.length := by
  unfold countNonNL
  have hp' : ∀ x ∈ p, (decide (x ≠ '\n')) = true := by
    intro x hx
    simp only [decide_eq_true_eq]
    intro he
    subst he
    have := hp _ hx
    simp [isWS] at this
  have hst' : ∀ x ∈ st, (decide (x ≠ '\n')) = true := by
    intro x hx
    simp only [decide_eq_true_eq]
    exact hst x hx
  rw [List.takeWhile_append_of_pos hp',
    List.takeWhile_cons_of_pos (by decide),
    List.takeWhile_cons_of_pos (by decide),
    List.takeWhile_cons_of_pos (by decide),
    List.takeWhile_append_of_pos hst',
    List.takeWhile_cons_of_neg (by simp)]
  simp
  omega

theorem matchTail_line_none {p st T : List Char}
    (hp : ∀ x ∈ p, isWS x = false) (hne : ¬ (['.', 'p', 'y'] <:+ p))
    (hst : ∀ x ∈ st, x ≠ '.' ∧ x ≠ '\n') :
    matchTail (p ++ (' ' :: '|' :: ' ' :: (st ++ '\n' :: T))) = none := by
  unfold matchTail
  rw [countNonNL_line hp (fun x hx => (hst x hx).2)]
  exact tryPy_eq_none fun k' hk' => tryPyStep_line_none hst p hp hne k' hk'

theorem matchTail_space_line_none {p st T : List Char}
    (hp : ∀ x ∈ p, isWS x = false) (hne : ¬ (['.', 'p', 'y'] <:+ p))
    (hst : ∀ x ∈ st, x ≠ '.' ∧ x ≠ '\n') :
    matchTail (' ' :: (p ++ (' ' :: '|' :: ' ' :: (st ++ '\n' :: T)))) = none := by
  unfold matchTail
  have hc : countNonNL (' ' :: (p ++ (' ' :: '|' :: ' ' :: (st ++ '\n' :: T)))) =
      p.length + 3 + st.length + 1 := by
    unfold countNonNL
    rw [List.takeWhile_cons_of_pos (by decide)]
    have := countNonNL_line (T := T) hp (fun x hx => (hst x hx).2)
    unfold countNonNL at this
    simp only [List.length_cons, this]
  rw [hc]
  apply tryPy_eq_none
  intro k' hk'
  cases k' with
  | zero => exact tryPyStep_zero_ne (by decide)
  | succ j =>
    exact tryPyStep_none_cons (tryPyStep_line_none hst p hp hne j (by omega))

theorem matchTail_line_some {q st T : List Char}
    (hq : ∀ x ∈ q, isWS x = false) (hst : ∀ x ∈ st, x ≠ '.' ∧ x ≠ '\n') :
    matchTail ((q ++ ['.', 'p', 'y']) ++ (' ' :: '|' :: ' ' :: (st ++ '\n' :: T))) =
      some (q ++ ['.', 'p', 'y'], ' ' :: (st ++ '\n' :: T)) := by
  have hp : ∀ x ∈ q ++ ['.', 'p', 'y'], isWS x = false := by
    intro x hx
    rcases List.mem_append.mp hx with h | h
    · exact hq x h
    · simp only [List.mem_cons, List.not_mem_nil, or_false] at h
      rcases h with h | h | h <;> subst h <;> rfl
  have hE : (q ++ ['.', 'p', 'y']) ++ (' ' :: '|' :: ' ' :: (st ++ '\n' :: T)) =
      q ++ ('.' :: 'p' :: 'y' :: ' ' :: '|' :: ' ' :: (st ++ '\n' :: T)) := by
    simp
  have hql : (q ++ ['.', 'p', 'y']).length = q.length + 3 := by simp
  unfold matchTail
  rw [countNonNL_line hp (fun x hx => (hst x hx).2), hE]
  apply tryPy_eq_some (k := q.length) tryPyStep_py_at
  · intro k' h1 h2
    obtain ⟨j, hj⟩ : ∃ j, k' = q.length + j := ⟨k' - q.length, by omega⟩
    subst hj
    exact tryPyStep_none_append q
      (tryPyStep_py_upper (fun x hx => (hst x hx).1) j (by omega) (by omega))
  · omega

theorem optSpaceTail_line_some {q st T : List Char}
    (hq : ∀ x ∈ q, isWS x = false) (hst : ∀ x ∈ st, x ≠ '.' ∧ x ≠ '\n') :
    optSpaceTail (' ' :: ((q ++ ['.', 'p', 'y']) ++
        (' ' :: '|' :: ' ' :: (st ++ '\n' :: T)))) =
      some (q ++ ['.', 'p', 'y'], ' ' :: (st ++ '\n' :: T)) := by
  show (match matchTail ((q ++ ['.', 'p', 'y']) ++
      (' ' :: '|' :: ' ' :: (st ++ '\n' :: T))) with
    | some res => some res
    | none => matchTail (' ' :: ((q ++ ['.', 'p', 'y']) ++
        (' ' :: '|' :: ' ' :: (st ++ '\n' :: T))))) = _
  rw [matchTail_line_some hq hst]

theorem optSpaceTail_line_none {p st T : List Char}
    (hp : ∀ x ∈ p, isWS x = false) (hne : ¬ (['.', 'p', 'y'] <:+ p))
    (hst : ∀ x ∈ st, x ≠ '.' ∧ x ≠ '\n') :
    optSpaceTail (' ' :: (p ++ (' ' :: '|' :: ' ' :: (st ++ '\n' :: T)))) = none := by
  show (match matchTail (p ++ (' ' :: '|' :: ' ' :: (st ++ '\n' :: T))) with
    | some res => some res
    | none => matchTail (' ' :: (p ++ (' ' :: '|' :: ' ' :: (st ++ '\n' :: T))))) = _
  rw [matchTail_line_none hp hne hst]
  exact matchTail_space_line_none hp hne hst

theorem hgScan_skip : ∀ (a : List Char), (∀ x ∈ a, x ≠ '\n') →
    ∀ m, hgScan (a ++ m) false = hgScan m false := by
  intro a
  induction a with
  | nil => intro _ m; rfl
  | cons c a' ih =>
    intro h m
    rw [List.cons_append, hgScan_cons]
    rw [if_neg (h c (by simp))]
    exact ih (fun x hx => h x (by simp [hx])) m

theorem hgScan_nl : ∀ (ls : List (List Char × List Char)),
    (∀ pr ∈ ls, (∀ x ∈ pr.1, isWS x = false ∧ x ≠ '|') ∧
      (∀ x ∈ pr.2, x ≠ '.' ∧ x ≠ '\n')) →
    hgScan ('\n' :: hgText ls) false =
      (ls.filter (fun pr => ['.', 'p', 'y'].isSuffixOf pr.1)).map Prod.fst := by
  intro ls
  induction ls with
  | nil => intro _; rfl
  | cons pr ls' ih =>
    obtain ⟨p, st⟩ := pr
    intro hwf
    have hp : ∀ x ∈ p, isWS x = false ∧ x ≠ '|' := (hwf (p, st) (by simp)).1
    have hst : ∀ x ∈ st, x ≠ '.' ∧ x ≠ '\n' := (hwf (p, st) (by simp)).2
    have hwf' : ∀ pr ∈ ls', (∀ x ∈ pr.1, isWS x = false ∧ x ≠ '|') ∧
        (∀ x ∈ pr.2, x ≠ '.' ∧ x ≠ '\n') := fun pr hpr => hwf pr (by simp [hpr])
    have hnorm : hgText ((p, st) :: ls') =
        ' ' :: (p ++ (' ' :: '|' :: ' ' :: (st ++ '\n' :: hgText ls'))) := by
      simp [hgText, hgLine]
    rw [hgScan_cons, hnorm]
    show (match optSpaceTail (' ' :: (p ++ (' ' :: '|' :: ' ' ::
        (st ++ '\n' :: hgText ls')))) with
      | some (cap, r) => cap :: hgScan r false
      | none => hgScan (' ' :: (p ++ (' ' :: '|' :: ' ' ::
          (st ++ '\n' :: hgText ls')))) false) = _
    by_cases hsfx : ['.', 'p', 'y'] <:+ p
    · obtain ⟨q, hq⟩ := hsfx
      have hqw : ∀ x ∈ q, isWS x = false := fun x hx =>
        (hp x (by rw [← hq]; exact List.mem_append.mpr (Or.inl hx))).1
      rw [← hq]
      rw [optSpaceTail_line_some hqw hst]
      dsimp only
      rw [show ' ' :: (st ++ '\n' :: hgText ls') =
        (' ' :: st) ++ ('\n' :: hgText ls') from by simp]
      rw [hgScan_skip (' ' :: st) (by
        intro x hx
        rcases List.mem_cons.mp hx with h | h
        · rw [h]; decide
        · exact (hst x h).2) _]
      rw [ih hwf']
      have hpt : (['.', 'p', 'y'].isSuffixOf (q ++ ['.', 'p', 'y'])) = true :=
        List.isSuffixOf_iff_suffix.mpr ⟨q, rfl⟩
      simp [List.filter_cons, hpt]
    · rw [optSpaceTail_line_none (fun x hx => (hp x hx).1) hsfx hst]
      dsimp only
      rw [show ' ' :: (p ++ (' ' :: '|' :: ' ' :: (st ++ '\n' :: hgText ls'))) =
        (' ' :: (p ++ (' ' :: '|' :: ' ' :: st))) ++ ('\n' :: hgText ls') from by simp]
      rw [hgScan_skip _ (by
        intro x hx
        rcases List.mem_cons.mp hx with h | h
        · rw [h]; decide
        · rcases List.mem_append.mp h with h2 | h2
          · intro he
            subst he
            have := (hp _ h2).1
            simp [isWS] at this
          · rcases List.mem_cons.mp h2 with h3 | h3
            · rw [h3]; decide
            · rcases List.mem_cons.mp h3 with h4 | h4
              · rw [h4]; decide
              · rcases List.mem_cons.mp h4 with h5 | h5
                · rw [h5]; decide
                · exact (hst x h5).2) _]
      rw [ih hwf']
      have hpf : (['.', 'p', 'y'].isSuffixOf p) = false := by
        cases hbb : ['.', 'p', 'y'].isSuffixOf p
        · rfl
        · exact absurd (List.isSuffixOf_iff_suffix.mp hbb) hsfx
      simp [List.filter_cons, hpf]

theorem hgScan_top : ∀ (ls : List (List Char × List Char)),
    (∀ pr ∈ ls, (∀ x ∈ pr.1, isWS x = false ∧ x ≠ '|') ∧
      (∀ x ∈ pr.2, x ≠ '.' ∧ x ≠ '\n')) →
    hgScan (hgText ls) true =
      (ls.filter (fun pr => ['.', 'p', 'y'].isSuffixOf pr.1)).map Prod.fst := by
  intro ls hwf
  cases ls with
  | nil => rfl
  | cons pr ls' =>
    obtain ⟨p, st⟩ := pr
    have hp : ∀ x ∈ p, isWS x = false ∧ x ≠ '|' := (hwf (p, st) (by simp)).1
    have hst : ∀ x ∈ st, x ≠ '.' ∧ x ≠ '\n' := (hwf (p, st) (by simp)).2
    have hwf' : ∀ pr ∈ ls', (∀ x ∈ pr.1, isWS x = false ∧ x ≠ '|') ∧
        (∀ x ∈ pr.2, x ≠ '.' ∧ x ≠ '\n') := fun pr hpr => hwf pr (by simp [hpr])
    have hnorm : hgText ((p, st) :: ls') =
        ' ' :: (p ++ (' ' :: '|' :: ' ' :: (st ++ '\n' :: hgText ls'))) := by
      simp [hgText, hgLine]
    rw [hnorm, hgScan_cons]
    show (match optSpaceTail (' ' :: (p ++ (' ' :: '|' :: ' ' ::
        (st ++ '\n' :: hgText ls')))) with
      | some (cap, r) => cap :: hgScan r false
      | none => hgScan (p ++ (' ' :: '|' :: ' ' ::
          (st ++ '\n' :: hgText ls'))) false) = _
    by_cases hsfx : ['.', 'p', 'y'] <:+ p
    · obtain ⟨q, hq⟩ := hsfx
      have hqw : ∀ x ∈ q, isWS x = false := fun x hx =>
        (hp x (by rw [← hq]; exact List.mem_append.mpr (Or.inl hx))).1
      rw [← hq]
      rw [optSpaceTail_line_some hqw hst]
      dsimp only
      rw [show ' ' :: (st ++ '\n' :: hgText ls') =
        (' ' :: st) ++ ('\n' :: hgText ls') from by simp]
      rw [hgScan_skip (' ' :: st) (by
        intro x hx
        rcases List.mem_cons.mp hx with h | h
        · rw [h]; decide
        · exact (hst x h).2) _]
      rw [hgScan_nl ls' hwf']
      have hpt : (['.', 'p', 'y'].isSuffixOf (q ++ ['.', 'p', 'y'])) = true :=
        List.isSuffixOf_iff_suffix.mpr ⟨q, rfl⟩
      simp [List.filter_cons, hpt]
    · rw [optSpaceTail_line_none (fun x hx => (hp x hx).1) hsfx hst]
      dsimp only
      rw [show p ++ (' ' :: '|' :: ' ' :: (st ++ '\n' :: hgText ls')) =
        (p ++ (' ' :: '|' :: ' ' :: st)) ++ ('\n' :: hgText ls') from by simp]
      rw [hgScan_skip _ (by
        intro x hx
        rcases List.mem_append.mp hx with h2 | h2
        · intro he
          subst he
          have := (hp _ h2).1
          simp [isWS] at this
        · rcases List.mem_cons.mp h2 with h3 | h3
          · rw [h3]; decide
          · rcases List.mem_cons.mp h3 with h4 | h4
            · rw [h4]; decide
            · rcases List.mem_cons.mp h4 with h5 | h5
              · rw [h5]; decide
              · exact (hst x h5).2) _]
      rw [hgScan_nl ls' hwf']
      have hpf : (['.', 'p', 'y'].isSuffixOf p) = false := by
        cases hbb : ['.', 'p', 'y'].isSuffixOf p
        · rfl
        · exact absurd (List.isSuffixOf_iff_suffix.mp hbb) hsfx
      simp [List.filter_cons, hpf]

/-- C6: on well-formed tabular diff-stat text — each line of the shape
`" <path> | <stats>"` with the path free of whitespace and pipes and the
stat tail free of dots and newlines — `Hg.parse_diff_filenames` keeps
exactly the lines whose path ends in `.py`, in input order, rejecting all
other lines; in particular on `" a.py | 2 +-\n b.txt | 1 +\n"` it returns
exactly `["a.py"]`. -/
theorem c6_hg_diff_stat :
    (∀ lines : List (List Char × List Char),
      (∀ pr ∈ lines, (∀ x ∈ pr.1, isWS x = false ∧ x ≠ '|') ∧
        (∀ x ∈ pr.2, x ≠ '.' ∧ x ≠ '\n')) →
      Hg.parse_diff_filenames (hgStat lines) =
        ((lines.filter (fun pr => ['.', 'p', 'y'].isSuffixOf pr.1)).map
          (fun pr => String.mk pr.1))) ∧
    Hg.parse_diff_filenames " a.py | 2 +-\n b.txt | 1 +\n" = ["a.py"] := by
  constructor
  · intro lines hwf
    unfold Hg.parse_diff_filenames hgStat
    rw [show (String.mk (hgText lines)).data = hgText lines from rfl]
    rw [hgScan_top lines hwf, List.map_map]
    rfl
  · rfl

/-- C6, witness: the general theorem applied to the two-line fixture
`[("a.py", "2 +-"), ("b.txt", "1 +")]`. -/
theorem c6_witness :
    Hg.parse_diff_filenames
        (hgStat [("a.py".data, "2 +-".data), ("b.txt".data, "1 +".data)]) =
      ["a.py"] :=
  (c6_hg_diff_stat.1 [("a.py".data, "2 +-".data), ("b.txt".data, "1 +".data)]
    (by decide)).trans (by decide)
